import Mathlib

/-
Shallow embedding of the `plaintextree` tree-printing engine.

Text is modelled as `List Char`; the character sink is an infallible
append-only buffer (matching a `String` sink, whose `fmt::Write`
implementation never fails).  All functions are translated from
`src/config.rs`, `src/config/unicode.rs`, `src/item_writer.rs` and
`src/tree_printer.rs`.
-/

set_option maxRecDepth 20000

/-- Characters of a string literal. -/
def chars (s : String) : List Char := s.data

/-- Part of a line decoration: the connector part or the whitespace padding
(`PrefixPart` in config.rs). -/
inductive PrefixPart where
  | Prefix
  | Padding
deriving DecidableEq

/-- Fixed edge configs of `config.rs` (`EdgeConfig`). -/
inductive EdgeConfig where
  | Ascii
  | UnicodeSingleWidth
  | UnicodeDoubleWidth
deriving DecidableEq

/-- `EdgeConfig::write_edge`: the exact characters written for the given
position and fragment (the written string, since the sink cannot fail). -/
def EdgeConfig.write_edge (e : EdgeConfig) (last_child first_line : Bool)
    (fragment : PrefixPart) : List Char :=
  match e, first_line, last_child, fragment with
  | .Ascii, true, true, PrefixPart.Prefix => chars "`--"
  | .Ascii, true, false, PrefixPart.Prefix => chars "|--"
  | .Ascii, true, _, PrefixPart.Padding => chars " "
  | .Ascii, false, true, PrefixPart.Prefix => chars ""
  | .Ascii, false, true, PrefixPart.Padding => chars "    "
  | .Ascii, false, false, PrefixPart.Prefix => chars "|"
  | .Ascii, false, false, PrefixPart.Padding => chars "   "
  | .UnicodeSingleWidth, true, true, PrefixPart.Prefix => chars "└──"
  | .UnicodeSingleWidth, true, false, PrefixPart.Prefix => chars "├──"
  | .UnicodeSingleWidth, true, _, PrefixPart.Padding => chars " "
  | .UnicodeSingleWidth, false, true, PrefixPart.Prefix => chars ""
  | .UnicodeSingleWidth, false, true, PrefixPart.Padding => chars "    "
  | .UnicodeSingleWidth, false, false, PrefixPart.Prefix => chars "│"
  | .UnicodeSingleWidth, false, false, PrefixPart.Padding => chars "   "
  | .UnicodeDoubleWidth, true, true, PrefixPart.Prefix => chars "└─"
  | .UnicodeDoubleWidth, true, false, PrefixPart.Prefix => chars "├─"
  | .UnicodeDoubleWidth, true, _, PrefixPart.Padding => chars " "
  | .UnicodeDoubleWidth, false, true, PrefixPart.Prefix => chars ""
  | .UnicodeDoubleWidth, false, true, PrefixPart.Padding => chars "     "
  | .UnicodeDoubleWidth, false, false, PrefixPart.Prefix => chars "│"
  | .UnicodeDoubleWidth, false, false, PrefixPart.Padding => chars "   "

/-- `EdgeConfig::is_prefix_whitespace`. -/
def EdgeConfig.is_prefix_whitespace (e : EdgeConfig) (last_child first_line : Bool) : Bool :=
  match e with
  | .Ascii | .UnicodeSingleWidth | .UnicodeDoubleWidth => last_child && !first_line

/-- `LineEdgeStatus` of item_writer.rs. -/
inductive LineEdgeStatus where
  | LineStart
  | PrefixEmitted
  | PaddingEmitted
deriving DecidableEq

/-- Per-depth writer state (`ItemState` / `ItemWriterState`). -/
structure ItemState where
  is_last_child : Bool
  edge : EdgeConfig
  at_first_line : Bool
  edge_status : LineEdgeStatus
deriving DecidableEq

/-- `ItemWriterState::new`. -/
def ItemState.new (is_last_child : Bool) (edge : EdgeConfig) : ItemState :=
  { is_last_child := is_last_child, edge := edge,
    at_first_line := true, edge_status := LineEdgeStatus.LineStart }

/-- `ItemWriterState::is_at_line_head`. -/
def ItemState.is_at_line_head (st : ItemState) : Bool :=
  match st.edge_status with
  | LineEdgeStatus.LineStart => true
  | _ => false

/-- `ItemWriterState::write_padding`: advance the status and return the
padding characters. -/
def ItemState.write_padding (st : ItemState) : ItemState × List Char :=
  ({ st with edge_status := LineEdgeStatus.PaddingEmitted },
    st.edge.write_edge st.is_last_child st.at_first_line PrefixPart.Padding)

/-- `ItemWriterState::write_prefix`: advance the status, return the connector
characters, and (when `emit_trailing_whitespace`) also write the padding. -/
def ItemState.write_prefix (st : ItemState) (emit_trailing_whitespace : Bool) :
    ItemState × List Char :=
  let st1 : ItemState := { st with edge_status := LineEdgeStatus.PrefixEmitted }
  let out1 := st.edge.write_edge st.is_last_child st.at_first_line PrefixPart.Prefix
  if emit_trailing_whitespace then
    let p := st1.write_padding
    (p.1, out1 ++ p.2)
  else
    (st1, out1)

/-- `ItemWriterState::reset_line_state`. -/
def ItemState.reset_line_state (st : ItemState) : ItemState :=
  { st with at_first_line := false, edge_status := LineEdgeStatus.LineStart }

/-- `Iterator::rposition`: index of the last element satisfying the predicate. -/
def rposition {α : Type} (p : α → Bool) : List α → Option Nat
  | [] => none
  | x :: xs =>
    match rposition p xs with
    | some i => some (i + 1)
    | none => if p x then some 0 else none

/-- The loop body of `ItemWriter::write_prefix_and_padding`: walk the states
front to back; depths strictly before index `k` get prefix then padding,
depth `k` gets its prefix and, only when `emit_last_padding`, its padding;
later depths are untouched.  `i` is the index of the head state. -/
def processStates (etw emit_last_padding : Bool) (k : Nat) :
    Nat → List ItemState → List ItemState × List Char
  | _, [] => ([], [])
  | i, st :: rest =>
    if i < k then
      let p1 := if st.edge_status = LineEdgeStatus.LineStart
        then ItemState.write_prefix st etw else (st, [])
      let p2 := if p1.1.edge_status = LineEdgeStatus.PrefixEmitted
        then ItemState.write_padding p1.1 else (p1.1, [])
      let pr := processStates etw emit_last_padding k (i + 1) rest
      (p2.1 :: pr.1, p1.2 ++ p2.2 ++ pr.2)
    else if i = k then
      let p1 := if st.edge_status = LineEdgeStatus.LineStart
        then ItemState.write_prefix st etw else (st, [])
      let p2 := if p1.1.edge_status = LineEdgeStatus.PrefixEmitted ∧ emit_last_padding
        then ItemState.write_padding p1.1 else (p1.1, [])
      (p2.1 :: rest, p1.2 ++ p2.2)
    else
      (st :: rest, [])

/-- `ItemWriter::write_prefix_and_padding`. -/
def write_prefix_and_padding (etw : Bool) (states : List ItemState)
    (line_is_empty : Bool) : List ItemState × List Char :=
  if states.isEmpty then (states, [])
  else
    let emit_last_padding := etw || !line_is_empty
    let idx : Option Nat :=
      if emit_last_padding then some (states.length - 1)
      else rposition
        (fun st => ! st.edge.is_prefix_whitespace st.is_last_child st.at_first_line) states
    match idx with
    | none => (states, [])
    | some k => processStates etw emit_last_padding k 0 states

/-- Rust `str::lines`: split at `\n` (also swallowing a `\r` that directly
precedes the `\n`), the final line ending being optional. -/
def rustLines : List Char → List (List Char)
  | [] => []
  | [c] => if c = '\n' then [[]] else [[c]]
  | c :: c2 :: rest =>
    if c = '\n' then [] :: rustLines (c2 :: rest)
    else if c = '\r' ∧ c2 = '\n' then [] :: rustLines rest
    else
      match rustLines (c2 :: rest) with
      | [] => [[c]]
      | l :: ls => (c :: l) :: ls

/-- The iterator state machine of `lines_with_last_line_flag`, applied to the
list of raw lines: every line is paired with `false` except the final one,
which is "last" unless the input ended in `\n` (`extra`), in which case an
additional empty "last" line is emitted. -/
def flagLines (extra : Bool) : List (List Char) → List (List Char × Bool)
  | [] => if extra then [(([] : List Char), true)] else []
  | [l] => (l, !extra) :: (if extra then [(([] : List Char), true)] else [])
  | l :: l2 :: ls => (l, false) :: flagLines extra (l2 :: ls)

/-- `lines_with_last_line_flag`. -/
def lines_with_last_line_flag (s : List Char) : List (List Char × Bool) :=
  flagLines (s.getLast? == some '\n') (rustLines s)

/-- The loop of `ItemWriter::write_str` over the flagged lines. -/
def writeLines (etw : Bool) : List (List Char × Bool) → List ItemState →
    List ItemState × List Char
  | [], states => (states, [])
  | (line, at_last_line) :: rest, states =>
    if at_last_line && line.isEmpty then (states, [])
    else
      let p1 := write_prefix_and_padding etw states line.isEmpty
      if at_last_line then
        let p2 := writeLines etw rest p1.1
        (p2.1, p1.2 ++ line ++ p2.2)
      else
        let p2 := writeLines etw rest (p1.1.map ItemState.reset_line_state)
        (p2.1, p1.2 ++ line ++ '\n' :: p2.2)

/-- `ItemWriter::write_str`. -/
def ItemWriter.write_str (etw : Bool) (states : List ItemState) (s : List Char) :
    List ItemState × List Char :=
  writeLines etw (lines_with_last_line_flag s) states

/-- `ItemWriter::go_to_next_line`.  The source `expect`s a non-empty state
stack; every caller guarantees it, so the empty case (a panic in the source)
is modelled as a no-op. -/
def go_to_next_line (etw : Bool) (states : List ItemState) :
    List ItemState × List Char :=
  match states.getLast? with
  | none => (states, [])
  | some last_state =>
    if last_state.is_at_line_head then (states, [])
    else ItemWriter.write_str etw states (chars "\n")

/-- `ItemStyle` of config.rs. -/
structure ItemStyle where
  is_last_child : Bool
  edge : EdgeConfig
deriving DecidableEq

/-- `ItemStyle::last`. -/
def ItemStyle.last (edge : EdgeConfig) : ItemStyle := ⟨true, edge⟩

/-- `ItemStyle::non_last`. -/
def ItemStyle.non_last (edge : EdgeConfig) : ItemStyle := ⟨false, edge⟩

/-- `From<ItemStyle> for ItemState` (`style.into()` in `open_node`). -/
def ItemStyle.into (style : ItemStyle) : ItemState :=
  ItemState.new style.is_last_child style.edge

/-- `TreeConfig` of config.rs (defaults: no trailing whitespace, trailing
newline on). -/
structure TreeConfig where
  emit_trailing_whitespace : Bool := false
  emit_trailing_newline : Bool := true
deriving DecidableEq

/-- `TreeConfig::new`. -/
def TreeConfig.new : TreeConfig := {}

/-- Tree print error (`Error` in tree_printer.rs).  The `Format` variant can
never be produced here because the modelled sink is infallible. -/
inductive Error where
  | ExtraNodeClose
  | Format
deriving DecidableEq

/-- `TreePrinter`: sink buffer, options and the per-depth state stack
(index 0 is the outermost open node, the last element the innermost). -/
structure TreePrinter where
  writer : List Char
  opts : TreeConfig
  states : List ItemState
deriving DecidableEq

/-- `TreePrinter::new`. -/
def TreePrinter.new (writer : List Char) (opts : TreeConfig) : TreePrinter :=
  ⟨writer, opts, []⟩

/-- `TreePrinter::open_node`. -/
def TreePrinter.open_node (p : TreePrinter) (style : ItemStyle) (content : List Char) :
    Except Error TreePrinter :=
  let g := if p.states.isEmpty then (p.states, ([] : List Char))
    else go_to_next_line p.opts.emit_trailing_whitespace p.states
  let w := ItemWriter.write_str p.opts.emit_trailing_whitespace
    (g.1 ++ [style.into]) content
  Except.ok { p with writer := p.writer ++ g.2 ++ w.2, states := w.1 }

/-- `TreePrinter::close_node`. -/
def TreePrinter.close_node (p : TreePrinter) : Except Error TreePrinter :=
  if p.states.isEmpty then Except.error Error.ExtraNodeClose
  else
    let g := if p.opts.emit_trailing_newline
      then go_to_next_line p.opts.emit_trailing_whitespace p.states
      else (p.states, ([] : List Char))
    Except.ok { p with writer := p.writer ++ g.2, states := g.1.dropLast }

/-- The loop of `TreePrinter::finalize`: close `n` nodes. -/
def closeAll : Nat → TreePrinter → Except Error TreePrinter
  | 0, p => Except.ok p
  | n + 1, p =>
    match p.close_node with
    | Except.ok p2 => closeAll n p2
    | Except.error e => Except.error e

/-- `TreePrinter::finalize`: close every remaining node and return the sink. -/
def TreePrinter.finalize (p : TreePrinter) : Except Error (List Char) :=
  match closeAll p.states.length p with
  | Except.ok p2 => Except.ok p2.writer
  | Except.error e => Except.error e

/-- A call against the public printer interface. -/
inductive Op where
  | openNode (style : ItemStyle) (content : List Char)
  | closeNode
deriving DecidableEq

/-- Run a sequence of `open_node`/`close_node` calls. -/
def runOps : List Op → TreePrinter → Except Error TreePrinter
  | [], p => Except.ok p
  | Op.openNode style content :: rest, p =>
    match p.open_node style content with
    | Except.ok p2 => runOps rest p2
    | Except.error e => Except.error e
  | Op.closeNode :: rest, p =>
    match p.close_node with
    | Except.ok p2 => runOps rest p2
    | Except.error e => Except.error e

/-- Balanced nesting: no prefix of the call sequence closes more nodes than
it has opened, starting from `d` already-open nodes. -/
def depthOk : Nat → List Op → Bool
  | _, [] => true
  | d, Op.openNode _ _ :: rest => depthOk (d + 1) rest
  | 0, Op.closeNode :: _ => false
  | d + 1, Op.closeNode :: rest => depthOk d rest

/-- Concatenate line slices with `\n` between consecutive slices. -/
def joinNl : List (List Char) → List Char
  | [] => []
  | [l] => l
  | l :: l2 :: ls => l ++ '\n' :: joinNl (l2 :: ls)

/-- `DashLevel` of config/unicode.rs. -/
inductive DashLevel where
  | Double
  | Triple
  | Quadruple
deriving DecidableEq

/-- `EdgeWidth` of config/unicode.rs. -/
inductive EdgeWidth where
  | Narrow
  | Bold
deriving DecidableEq

/-- `EdgeStyle` of config/unicode.rs. -/
inductive EdgeStyle where
  | Solid (w : EdgeWidth)
  | Dashed (w : EdgeWidth) (l : DashLevel)
  | Double
deriving DecidableEq

/-- `EdgeStyleWithoutDashed`. -/
inductive EdgeStyleWithoutDashed where
  | Solid (w : EdgeWidth)
  | Double
deriving DecidableEq

/-- `EdgeStyle::dashed_to_solid` (the `From` impl collapsing `Dashed`). -/
def EdgeStyle.dashed_to_solid : EdgeStyle → EdgeStyleWithoutDashed
  | EdgeStyle.Solid w => EdgeStyleWithoutDashed.Solid w
  | EdgeStyle.Dashed w _ => EdgeStyleWithoutDashed.Solid w
  | EdgeStyle.Double => EdgeStyleWithoutDashed.Double

/-- `CornerStyle` of config/unicode.rs. -/
inductive CornerStyle where
  | Angle
  | Round
deriving DecidableEq

/-- `AmbiWidth` of config/unicode.rs. -/
inductive AmbiWidth where
  | Single
  | Double
deriving DecidableEq

/-- `preceding_first_first`: glyph for the non-last item, first line, first
character. -/
def preceding_first_first (vertical_backward vertical_forward horizontal : EdgeStyle) :
    Option Char :=
  match vertical_backward.dashed_to_solid, vertical_forward.dashed_to_solid,
      horizontal.dashed_to_solid with
  | .Solid .Narrow, .Solid .Narrow, .Solid .Narrow => some '├'
  | .Solid .Narrow, .Solid .Narrow, .Solid .Bold => some '┝'
  | .Solid .Narrow, .Solid .Narrow, .Double => some '╞'
  | .Solid .Narrow, .Solid .Bold, .Solid .Narrow => some '┟'
  | .Solid .Narrow, .Solid .Bold, .Solid .Bold => some '┢'
  | .Solid .Narrow, .Solid .Bold, .Double => none
  | .Solid .Narrow, .Double, _ => none
  | .Solid .Bold, .Solid .Narrow, .Solid .Narrow => some '┞'
  | .Solid .Bold, .Solid .Narrow, .Solid .Bold => some '┡'
  | .Solid .Bold, .Solid .Narrow, .Double => none
  | .Solid .Bold, .Solid .Bold, .Solid .Narrow => some '┠'
  | .Solid .Bold, .Solid .Bold, .Solid .Bold => some '┣'
  | .Solid .Bold, .Solid .Bold, .Double => none
  | .Solid .Bold, .Double, _ => none
  | .Double, .Solid .Narrow, _ => none
  | .Double, .Solid .Bold, _ => none
  | .Double, .Double, .Solid .Narrow => some '╟'
  | .Double, .Double, .Solid .Bold => none
  | .Double, .Double, .Double => some '╠'

/-- `last_first_first`: glyph for the last item, first line, first character. -/
def last_first_first (vertical_backward horizontal : EdgeStyle) (corner : CornerStyle) :
    Option Char :=
  match vertical_backward.dashed_to_solid, horizontal.dashed_to_solid, corner with
  | .Solid .Narrow, .Solid .Narrow, .Angle => some '└'
  | .Solid .Narrow, .Solid .Narrow, .Round => some '╰'
  | .Solid .Narrow, .Solid .Bold, .Angle => some '┕'
  | .Solid .Narrow, .Solid .Bold, .Round => none
  | .Solid .Narrow, .Double, .Angle => some '╘'
  | .Solid .Narrow, .Double, .Round => none
  | .Solid .Bold, .Solid .Narrow, .Angle => some '┖'
  | .Solid .Bold, .Solid .Narrow, .Round => none
  | .Solid .Bold, .Solid .Bold, .Angle => some '┗'
  | .Solid .Bold, .Solid .Bold, .Round => none
  | .Solid .Bold, .Double, _ => none
  | .Double, .Solid .Narrow, .Angle => some '╙'
  | .Double, .Solid .Narrow, .Round => none
  | .Double, .Solid .Bold, _ => none
  | .Double, .Double, .Angle => some '╚'
  | .Double, .Double, .Round => none

/-- `preceding_succeeding_first`: glyph for the non-last item, succeeding
line, first character. -/
def preceding_succeeding_first (vertical_forward : EdgeStyle) : Option Char :=
  match vertical_forward with
  | EdgeStyle.Solid .Narrow => some '│'
  | EdgeStyle.Solid .Bold => some '┃'
  | EdgeStyle.Dashed .Narrow .Double => some '╎'
  | EdgeStyle.Dashed .Narrow .Triple => some '┆'
  | EdgeStyle.Dashed .Narrow .Quadruple => some '┊'
  | EdgeStyle.Dashed .Bold .Double => some '╏'
  | EdgeStyle.Dashed .Bold .Triple => some '┇'
  | EdgeStyle.Dashed .Bold .Quadruple => some '┋'
  | EdgeStyle.Double => some '║'

/-- `any_first_succeeding`: glyph for any item, first line, succeeding
character. -/
def any_first_succeeding (horizontal : EdgeStyle) : Option Char :=
  match horizontal with
  | EdgeStyle.Solid .Narrow => some '─'
  | EdgeStyle.Solid .Bold => some '━'
  | EdgeStyle.Dashed .Narrow .Double => some '╌'
  | EdgeStyle.Dashed .Narrow .Triple => some '┄'
  | EdgeStyle.Dashed .Narrow .Quadruple => some '┈'
  | EdgeStyle.Dashed .Bold .Double => some '╍'
  | EdgeStyle.Dashed .Bold .Triple => some '┅'
  | EdgeStyle.Dashed .Bold .Quadruple => some '┉'
  | EdgeStyle.Double => some '═'

/-- `UnicodeEdgeConfigBuilder` of config/unicode.rs. -/
structure UnicodeEdgeConfigBuilder where
  ambiwidth : AmbiWidth
  vertical_backward : EdgeStyle
  vertical_forward : EdgeStyle
  horizontal : EdgeStyle
  corner : CornerStyle
deriving DecidableEq

/-- `UnicodeEdgeConfigBuilder::with_ambiwidth`: defaults are `Solid(Narrow)`
lines with an `Angle` corner. -/
def UnicodeEdgeConfigBuilder.with_ambiwidth (ambiwidth : AmbiWidth) :
    UnicodeEdgeConfigBuilder :=
  { ambiwidth := ambiwidth,
    vertical_backward := EdgeStyle.Solid EdgeWidth.Narrow,
    vertical_forward := EdgeStyle.Solid EdgeWidth.Narrow,
    horizontal := EdgeStyle.Solid EdgeWidth.Narrow,
    corner := CornerStyle.Angle }

/-- Builder setter `vertical` (sets both vertical styles). -/
def UnicodeEdgeConfigBuilder.vertical (b : UnicodeEdgeConfigBuilder) (style : EdgeStyle) :
    UnicodeEdgeConfigBuilder :=
  { b with vertical_backward := style, vertical_forward := style }

/-- Builder setter `vertical_backward`. -/
def UnicodeEdgeConfigBuilder.set_vertical_backward (b : UnicodeEdgeConfigBuilder)
    (style : EdgeStyle) : UnicodeEdgeConfigBuilder :=
  { b with vertical_backward := style }

/-- Builder setter `vertical_forward`. -/
def UnicodeEdgeConfigBuilder.set_vertical_forward (b : UnicodeEdgeConfigBuilder)
    (style : EdgeStyle) : UnicodeEdgeConfigBuilder :=
  { b with vertical_forward := style }

/-- Builder setter `horizontal`. -/
def UnicodeEdgeConfigBuilder.set_horizontal (b : UnicodeEdgeConfigBuilder)
    (style : EdgeStyle) : UnicodeEdgeConfigBuilder :=
  { b with horizontal := style }

/-- Builder setter `corner`. -/
def UnicodeEdgeConfigBuilder.set_corner (b : UnicodeEdgeConfigBuilder)
    (corner : CornerStyle) : UnicodeEdgeConfigBuilder :=
  { b with corner := corner }

/-- `UnicodeEdgeConfig`: the four representative glyphs chosen at build time. -/
structure UnicodeEdgeConfig where
  ambiwidth : AmbiWidth
  preceding_first_first : Char
  last_first_first : Char
  any_first_succeeding : Char
  preceding_succeeding_first : Char
deriving DecidableEq

/-- `UnicodeEdgeConfigBuilder::build`: fails (returns `none`) whenever one of
the four representative glyph lookups has no Unicode character. -/
def UnicodeEdgeConfigBuilder.build (b : UnicodeEdgeConfigBuilder) :
    Option UnicodeEdgeConfig := do
  let pff ← preceding_first_first b.vertical_backward b.vertical_forward b.horizontal
  let lff ← last_first_first b.vertical_backward b.horizontal b.corner
  let psf ← preceding_succeeding_first b.vertical_forward
  let afs ← any_first_succeeding b.horizontal
  some { ambiwidth := b.ambiwidth,
         preceding_first_first := pff,
         last_first_first := lff,
         any_first_succeeding := afs,
         preceding_succeeding_first := psf }

/-- `UnicodeEdgeConfig::first_line_first_char`. -/
def UnicodeEdgeConfig.first_line_first_char (cfg : UnicodeEdgeConfig)
    (last_child : Bool) : Char :=
  if last_child then cfg.last_first_first else cfg.preceding_first_first

/-- `UnicodeEdgeConfig::write_edge`. -/
def UnicodeEdgeConfig.write_edge (cfg : UnicodeEdgeConfig)
    (last_child first_line : Bool) (fragment : PrefixPart) : List Char :=
  match first_line, last_child, cfg.ambiwidth, fragment with
  | true, _, AmbiWidth.Single, PrefixPart.Prefix =>
    [cfg.first_line_first_char last_child, cfg.any_first_succeeding,
     cfg.any_first_succeeding]
  | true, _, AmbiWidth.Double, PrefixPart.Prefix =>
    [cfg.first_line_first_char last_child, cfg.any_first_succeeding]
  | true, _, _, PrefixPart.Padding => chars " "
  | false, true, _, PrefixPart.Prefix => []
  | false, true, AmbiWidth.Single, PrefixPart.Padding => chars "    "
  | false, true, AmbiWidth.Double, PrefixPart.Padding => chars "     "
  | false, false, _, PrefixPart.Prefix => [cfg.preceding_succeeding_first]
  | false, false, _, PrefixPart.Padding => chars "   "

/-- `UnicodeEdgeConfig::is_prefix_whitespace`. -/
def UnicodeEdgeConfig.is_prefix_whitespace (_cfg : UnicodeEdgeConfig)
    (last_child first_line : Bool) : Bool :=
  last_child && !first_line

/-- Whether a character list is pure whitespace (the empty list counting as
whitespace). -/
def allWs (l : List Char) : Bool := l.all (fun c => c == ' ')

/-- The call sequence of the documented ASCII scenario. -/
def c1Ops : List Op :=
  [Op.openNode (ItemStyle.non_last EdgeConfig.Ascii) (chars "foo"),
   Op.openNode (ItemStyle.non_last EdgeConfig.Ascii) (chars "bar"),
   Op.openNode (ItemStyle.last EdgeConfig.Ascii) (chars "baz\n\nbaz2"),
   Op.closeNode, Op.closeNode, Op.closeNode,
   Op.openNode (ItemStyle.non_last EdgeConfig.Ascii) (chars "corge\n"),
   Op.closeNode,
   Op.openNode (ItemStyle.last EdgeConfig.Ascii) (chars "grault"),
   Op.closeNode]

/-- Claim C1: the scenario foo(non-last) / bar(non-last) / baz(last,
"baz\n\nbaz2"), three closes, corge(non-last, "corge\n"), close,
grault(last), close, finalize, with the Ascii edge style, default
configuration and a sink pre-seeded with ".\n", leaves exactly the expected
bytes in the sink: one "|   " column accumulates per open ancestor and the
blank line between baz and baz2 carries no trailing whitespace. -/
theorem claim_c1 :
    (match runOps c1Ops (TreePrinter.new (chars ".\n") TreeConfig.new) with
      | Except.ok p => p.finalize
      | Except.error e => Except.error e)
    = Except.ok (chars ".\n|-- foo\n|   |-- bar\n|   |   `-- baz\n|   |\n|   |       baz2\n|-- corge\n`-- grault\n") := by
  rfl

/-- Claim C5: `close_node` with an empty state stack returns the
`ExtraNodeClose` error, for every configuration and sink contents. -/
theorem claim_c5 (opts : TreeConfig) (w : List Char) :
    TreePrinter.close_node { writer := w, opts := opts, states := [] }
      = Except.error Error.ExtraNodeClose := rfl

/-- Claim C10 helper: the config produced by the default Single-width builder. -/
def uniSingleCfg : UnicodeEdgeConfig :=
  { ambiwidth := AmbiWidth.Single, preceding_first_first := '├',
    last_first_first := '└', any_first_succeeding := '─',
    preceding_succeeding_first := '│' }

/-- Claim C10 helper: the config produced by the default Double-width builder. -/
def uniDoubleCfg : UnicodeEdgeConfig :=
  { ambiwidth := AmbiWidth.Double, preceding_first_first := '├',
    last_first_first := '└', any_first_succeeding := '─',
    preceding_succeeding_first := '│' }

/-- Claim C10: the custom Unicode builder with all axes at their defaults
always builds, and the resulting `write_edge` agrees byte-for-byte with the
fixed `UnicodeSingleWidth` table (for `AmbiWidth::Single`) respectively the
fixed `UnicodeDoubleWidth` table (for `AmbiWidth::Double`), on every
(last_child, first_line, fragment) input. -/
theorem claim_c10 :
    (UnicodeEdgeConfigBuilder.with_ambiwidth AmbiWidth.Single).build = some uniSingleCfg
    ∧ (UnicodeEdgeConfigBuilder.with_ambiwidth AmbiWidth.Double).build = some uniDoubleCfg
    ∧ (∀ (lc fl : Bool) (frag : PrefixPart),
        uniSingleCfg.write_edge lc fl frag
          = EdgeConfig.UnicodeSingleWidth.write_edge lc fl frag)
    ∧ (∀ (lc fl : Bool) (frag : PrefixPart),
        uniDoubleCfg.write_edge lc fl frag
          = EdgeConfig.UnicodeDoubleWidth.write_edge lc fl frag) := by
  refine ⟨rfl, rfl, ?_, ?_⟩ <;>
    (intro lc fl frag; cases lc <;> cases fl <;> cases frag <;> rfl)

/-- Claim C9 counterexample: with the default glyphs, the non-last
continuation-line padding of the Double-width config is NOT one column wider
than the Single-width one (both are three spaces), refuting "every padding
string is one column wider". -/
theorem claim_c9_counterexample :
    ¬ ((uniDoubleCfg.write_edge false false PrefixPart.Padding).length
        = (uniSingleCfg.write_edge false false PrefixPart.Padding).length + 1) := by
  decide

/-- Claim C9 (amended): with double ambiguous width the first-line prefix
emits the continuation character exactly once after the junction glyph while
single width emits it twice; only the last-child continuation-line padding is
one column wider (five spaces vs four); the first-line padding and the
non-last continuation padding are identical in both widths. -/
theorem claim_c9_amended (cfg : UnicodeEdgeConfig) (lc : Bool) :
    ({ cfg with ambiwidth := AmbiWidth.Double }).write_edge lc true PrefixPart.Prefix
      = [cfg.first_line_first_char lc, cfg.any_first_succeeding]
    ∧ ({ cfg with ambiwidth := AmbiWidth.Single }).write_edge lc true PrefixPart.Prefix
      = [cfg.first_line_first_char lc, cfg.any_first_succeeding, cfg.any_first_succeeding]
    ∧ ({ cfg with ambiwidth := AmbiWidth.Double }).write_edge true false PrefixPart.Padding
      = chars "     "
    ∧ ({ cfg with ambiwidth := AmbiWidth.Single }).write_edge true false PrefixPart.Padding
      = chars "    "
    ∧ ({ cfg with ambiwidth := AmbiWidth.Double }).write_edge lc true PrefixPart.Padding
      = ({ cfg with ambiwidth := AmbiWidth.Single }).write_edge lc true PrefixPart.Padding
    ∧ ({ cfg with ambiwidth := AmbiWidth.Double }).write_edge false false PrefixPart.Padding
      = ({ cfg with ambiwidth := AmbiWidth.Single }).write_edge false false PrefixPart.Padding := by
  cases lc <;> exact ⟨rfl, rfl, rfl, rfl, rfl, rfl⟩

/-- Claim C7: custom Unicode construction fails for a combination mixing a
Dashed vertical-backward axis with a Double vertical-forward axis at the same
junction, succeeds for the all-Solid(Narrow)/Angle default, and fails
whenever any of the four representative glyph lookups has no character. -/
theorem claim_c7 :
    ((UnicodeEdgeConfigBuilder.with_ambiwidth AmbiWidth.Single).set_vertical_backward
        (EdgeStyle.Dashed EdgeWidth.Narrow DashLevel.Triple)
      |>.set_vertical_forward EdgeStyle.Double).build = none
    ∧ ((UnicodeEdgeConfigBuilder.with_ambiwidth AmbiWidth.Single).build).isSome = true
    ∧ (∀ b : UnicodeEdgeConfigBuilder,
        (preceding_first_first b.vertical_backward b.vertical_forward b.horizontal = none
          ∨ last_first_first b.vertical_backward b.horizontal b.corner = none
          ∨ preceding_succeeding_first b.vertical_forward = none
          ∨ any_first_succeeding b.horizontal = none) →
        b.build = none) := by
  refine ⟨rfl, rfl, ?_⟩
  intro b h
  unfold UnicodeEdgeConfigBuilder.build
  rcases h with h | h | h | h
  · simp [h]
  · cases hp : preceding_first_first b.vertical_backward b.vertical_forward b.horizontal <;>
      simp [h, hp]
  · cases hp : preceding_first_first b.vertical_backward b.vertical_forward b.horizontal <;>
      cases hl : last_first_first b.vertical_backward b.horizontal b.corner <;>
      simp [h, hp, hl]
  · cases hp : preceding_first_first b.vertical_backward b.vertical_forward b.horizontal <;>
      cases hl : last_first_first b.vertical_backward b.horizontal b.corner <;>
      cases hs : preceding_succeeding_first b.vertical_forward <;>
      simp [h, hp, hl, hs]

/-- Claim C7 witness: a concrete combination whose non-last-junction lookup is
empty (Double vertical-backward over Solid(Bold) vertical-forward) makes the
whole build fail. -/
theorem claim_c7_witness :
    ({ ambiwidth := AmbiWidth.Single, vertical_backward := EdgeStyle.Double,
       vertical_forward := EdgeStyle.Solid EdgeWidth.Bold,
       horizontal := EdgeStyle.Solid EdgeWidth.Narrow,
       corner := CornerStyle.Angle } : UnicodeEdgeConfigBuilder).build = none :=
  claim_c7.2.2 _ (Or.inl (by decide))

theorem pff_not_space (a b c : EdgeStyle) :
    (preceding_first_first a b c).all (fun g => g != ' ') = true := by
  unfold preceding_first_first
  generalize EdgeStyle.dashed_to_solid a = x
  generalize EdgeStyle.dashed_to_solid b = y
  generalize EdgeStyle.dashed_to_solid c = z
  rcases x with ⟨_ | _⟩ | _ <;> rcases y with ⟨_ | _⟩ | _ <;>
    rcases z with ⟨_ | _⟩ | _ <;> decide

/-- Every glyph the `last_first_first` lookup can return is non-whitespace. -/
theorem lff_not_space (a c : EdgeStyle) (k : CornerStyle) :
    (last_first_first a c k).all (fun g => g != ' ') = true := by
  unfold last_first_first
  generalize EdgeStyle.dashed_to_solid a = x
  generalize EdgeStyle.dashed_to_solid c = z
  rcases x with ⟨_ | _⟩ | _ <;> rcases z with ⟨_ | _⟩ | _ <;> cases k <;> decide

/-- Every glyph the `preceding_succeeding_first` lookup can return is
non-whitespace. -/
theorem psf_not_space (a : EdgeStyle) :
    (preceding_succeeding_first a).all (fun g => g != ' ') = true := by
  rcases a with ⟨_ | _⟩ | ⟨_ | _, _ | _ | _⟩ | _ <;> decide

/-- Every glyph the `any_first_succeeding` lookup can return is
non-whitespace. -/
theorem afs_not_space (a : EdgeStyle) :
    (any_first_succeeding a).all (fun g => g != ' ') = true := by
  rcases a with ⟨_ | _⟩ | ⟨_ | _, _ | _ | _⟩ | _ <;> decide

/-- Claim C8: for the fixed edge styles and for every successfully built
custom Unicode config, `is_prefix_whitespace` returns true exactly when
`last_child && !first_line`, and it returns true precisely when the prefix
and padding `write_edge` would emit consist only of whitespace. -/
theorem claim_c8 :
    (∀ (e : EdgeConfig) (lc fl : Bool),
      e.is_prefix_whitespace lc fl = (lc && !fl)
      ∧ (e.is_prefix_whitespace lc fl = true ↔
          allWs (e.write_edge lc fl PrefixPart.Prefix
            ++ e.write_edge lc fl PrefixPart.Padding) = true))
    ∧ (∀ (b : UnicodeEdgeConfigBuilder) (cfg : UnicodeEdgeConfig),
        b.build = some cfg → ∀ (lc fl : Bool),
        cfg.is_prefix_whitespace lc fl = (lc && !fl)
        ∧ (cfg.is_prefix_whitespace lc fl = true ↔
            allWs (cfg.write_edge lc fl PrefixPart.Prefix
              ++ cfg.write_edge lc fl PrefixPart.Padding) = true)) := by
  constructor
  · intro e lc fl
    cases e <;> cases lc <;> cases fl <;> exact ⟨rfl, by decide⟩
  · intro b cfg hb lc fl
    have hpffA := pff_not_space b.vertical_backward b.vertical_forward b.horizontal
    have hlffA := lff_not_space b.vertical_backward b.horizontal b.corner
    have hpsfA := psf_not_space b.vertical_forward
    have hafsA := afs_not_space b.horizontal
    unfold UnicodeEdgeConfigBuilder.build at hb
    cases hp : preceding_first_first b.vertical_backward b.vertical_forward b.horizontal with
    | none => rw [hp] at hb; exact absurd hb (by simp)
    | some p =>
    rw [hp] at hb
    cases hl : last_first_first b.vertical_backward b.horizontal b.corner with
    | none => rw [hl] at hb; exact absurd hb (by simp)
    | some l =>
    rw [hl] at hb
    cases hs : preceding_succeeding_first b.vertical_forward with
    | none => rw [hs] at hb; exact absurd hb (by simp)
    | some s =>
    rw [hs] at hb
    cases ha : any_first_succeeding b.horizontal with
    | none => rw [ha] at hb; exact absurd hb (by simp)
    | some a =>
    rw [ha] at hb
    rw [hp] at hpffA; rw [hl] at hlffA; rw [hs] at hpsfA; rw [ha] at hafsA
    simp only [Option.all] at hpffA hlffA hpsfA hafsA
    have hb2 : UnicodeEdgeConfig.mk b.ambiwidth p l a s = cfg := by
      simpa using hb
    subst hb2
    refine ⟨rfl, ?_⟩
    cases lc <;> cases fl <;> cases hw : b.ambiwidth <;>
      simp_all [UnicodeEdgeConfig.write_edge, UnicodeEdgeConfig.is_prefix_whitespace,
        UnicodeEdgeConfig.first_line_first_char, allWs, chars]

/-- Claim C8 witness: the theorem applied to the default Single-width custom
config at the last-child / non-first-line position. -/
theorem claim_c8_witness :
    (uniSingleCfg.is_prefix_whitespace true false = (true && !false))
    ∧ (uniSingleCfg.is_prefix_whitespace true false = true ↔
        allWs (uniSingleCfg.write_edge true false PrefixPart.Prefix
          ++ uniSingleCfg.write_edge true false PrefixPart.Padding) = true) :=
  claim_c8.2 (UnicodeEdgeConfigBuilder.with_ambiwidth AmbiWidth.Single)
    uniSingleCfg rfl true false

/-- A non-empty input always has at least one line. -/
theorem rustLines_ne_nil : ∀ (s : List Char), s ≠ [] → rustLines s ≠ []
  | [], h => absurd rfl h
  | [c], _ => by unfold rustLines; split <;> simp
  | c :: c2 :: rest, _ => by
    unfold rustLines
    split
    · simp
    · split
      · simp
      · split <;> simp

/-- The slices yielded by the flag-annotating iterator are the raw lines,
followed by one extra empty slice when the input ended in a newline. -/
theorem flagLines_map_fst (extra : Bool) :
    ∀ L : List (List Char),
      (flagLines extra L).map Prod.fst = L ++ (if extra then [([] : List Char)] else [])
  | [] => by cases extra <;> rfl
  | [l] => by cases extra <;> rfl
  | l :: l2 :: ls => by
    have ih := flagLines_map_fst extra (l2 :: ls)
    simp only [flagLines, List.map_cons, ih, List.cons_append]

/-- Appending an extra empty slice to a non-empty slice list appends exactly
one newline to the joined text. -/
theorem joinNl_append_empty :
    ∀ L : List (List Char), L ≠ [] → joinNl (L ++ [[]]) = joinNl L ++ ['\n']
  | [], h => absurd rfl h
  | [l], _ => by simp [joinNl]
  | l :: l2 :: ls, _ => by
    have ih := joinNl_append_empty (l2 :: ls) (by simp)
    simp only [List.cons_append] at ih ⊢
    simp [joinNl, ih]

/-- Joining after prepending a character to the first slice. -/
theorem joinNl_cons_cons (c : Char) (l : List Char) (ls : List (List Char)) :
    joinNl ((c :: l) :: ls) = c :: joinNl (l :: ls) := by
  cases ls with
  | nil => rfl
  | cons l2 ls2 => simp [joinNl]

/-- Shape of the line list of a non-empty input. -/
theorem rustLines_exists_cons (s : List Char) (hs : s ≠ []) :
    ∃ l ls, rustLines s = l :: ls := by
  cases h : rustLines s with
  | nil => exact absurd h (rustLines_ne_nil _ hs)
  | cons l ls => exact ⟨l, ls, rfl⟩

/-- Round trip of the raw line splitter for carriage-return-free input:
joining the lines with newlines, plus a final newline exactly when the input
ended in one, rebuilds the input. -/
theorem rustLines_reconstruct : ∀ (s : List Char), '\r' ∉ s →
    joinNl (rustLines s) ++ (if s.getLast? == some '\n' then ['\n'] else []) = s
  | [], _ => by simp [rustLines, joinNl]
  | [c], _ => by by_cases hc : c = '\n' <;> simp [rustLines, joinNl, hc]
  | c :: c2 :: rest, hr => by
    have hr2 : '\r' ∉ c2 :: rest := fun h => hr (List.mem_cons_of_mem _ h)
    have hcr : c ≠ '\r' := fun h => hr (by rw [h]; exact List.mem_cons_self _ _)
    have ih := rustLines_reconstruct (c2 :: rest) hr2
    obtain ⟨l, ls, hM⟩ := rustLines_exists_cons (c2 :: rest) (by simp)
    rw [hM] at ih
    by_cases hc : c = '\n'
    · subst hc
      have hrl : rustLines ('\n' :: c2 :: rest) = [] :: l :: ls := by
        unfold rustLines; rw [if_pos rfl, hM]
      rw [hrl, List.getLast?_cons_cons]
      have hjoin : joinNl ([] :: l :: ls) = '\n' :: joinNl (l :: ls) := by
        simp [joinNl]
      rw [hjoin]
      rw [List.cons_append, ih]
    · have hc2 : ¬ (c = '\r' ∧ c2 = '\n') := fun h => hcr h.1
      have hrl : rustLines (c :: c2 :: rest) = (c :: l) :: ls := by
        unfold rustLines; rw [if_neg hc, if_neg hc2, hM]
      rw [hrl, joinNl_cons_cons, List.getLast?_cons_cons, List.cons_append, ih]
/-- Claim C2 counterexample: for the input "\n" — one of the inputs the
claim itself names — joining the yielded slices with "\n" and appending a
final "\n" (the input ends in "\n") gives "\n\n", not the input: the
claimed reconstruction formula over-counts the trailing newline, because the
splitter already yields an extra empty last slice for it. -/
theorem claim_c2_counterexample :
    ¬ (joinNl ((lines_with_last_line_flag (chars "\n")).map Prod.fst)
        ++ (if (chars "\n").getLast? == some '\n' then ['\n'] else [])
      = chars "\n") := by decide

/-- Claim C2 (amended): for every input containing no carriage return,
concatenating the slices yielded by the line splitter with "\n" between
consecutive slices reconstructs the original input exactly — with no
additional final newline, since a trailing "\n" in the input is already
represented by the splitter's extra empty last slice; and the empty input
yields zero slices. -/
theorem claim_c2_amended :
    (∀ s : List Char, '\r' ∉ s →
        joinNl ((lines_with_last_line_flag s).map Prod.fst) = s)
    ∧ lines_with_last_line_flag [] = [] := by
  refine ⟨?_, rfl⟩
  intro s hr
  unfold lines_with_last_line_flag
  rw [flagLines_map_fst]
  by_cases hnl : s.getLast? = some '\n'
  · have hs : s ≠ [] := by intro h; subst h; simp at hnl
    have hM := rustLines_ne_nil s hs
    have hrc := rustLines_reconstruct s hr
    have hb : (s.getLast? == some '\n') = true := by simp [hnl]
    rw [hb] at hrc ⊢
    simp only [if_true] at hrc ⊢
    rw [joinNl_append_empty _ hM, hrc]
  · have hrc := rustLines_reconstruct s hr
    have hb : (s.getLast? == some '\n') = false := by
      simp [hnl]
    rw [hb] at hrc ⊢
    simp only [Bool.false_eq_true, if_false] at hrc ⊢
    rw [List.append_nil] at hrc ⊢
    exact hrc

/-- Claim C2 witness: the amended round trip evaluated on "a\n\nb". -/
theorem claim_c2_witness :
    ('\r' ∉ chars "a\n\nb")
    ∧ joinNl ((lines_with_last_line_flag (chars "a\n\nb")).map Prod.fst)
        = chars "a\n\nb" :=
  ⟨by decide, claim_c2_amended.1 (chars "a\n\nb") (by decide)⟩

/-- The last element of an append with a non-empty right part. -/
theorem glast_append {α : Type} (a b : List α) (hb : b ≠ []) :
    (a ++ b).getLast? = b.getLast? := by
  rw [List.getLast?_append]
  cases h : b.getLast? with
  | none => exact absurd (List.getLast?_eq_none_iff.mp h) hb
  | some c => rfl

/-- No line produced by the splitter contains a newline character. -/
theorem rustLines_no_newline : ∀ (s : List Char), ∀ l ∈ rustLines s, '\n' ∉ l
  | [], l, hl => by simp [rustLines] at hl
  | [c], l, hl => by
    by_cases hc : c = '\n' <;> simp [rustLines, hc] at hl <;> subst hl <;> simp
    intro h
    exact hc h.symm
  | c :: c2 :: rest, l, hl => by
    have hl' := hl
    unfold rustLines at hl'
    by_cases hc : c = '\n'
    · rw [if_pos hc] at hl'
      rcases List.mem_cons.mp hl' with h | h
      · subst h; simp
      · exact rustLines_no_newline (c2 :: rest) l h
    · rw [if_neg hc] at hl'
      by_cases hc2 : c = '\r' ∧ c2 = '\n'
      · rw [if_pos hc2] at hl'
        rcases List.mem_cons.mp hl' with h | h
        · subst h; simp
        · exact rustLines_no_newline rest l h
      · rw [if_neg hc2] at hl'
        obtain ⟨l1, ls, hM⟩ := rustLines_exists_cons (c2 :: rest) (by simp)
        rw [hM] at hl'
        have ihm := rustLines_no_newline (c2 :: rest)
        rw [hM] at ihm
        rcases List.mem_cons.mp hl' with h | h
        · subst h
          intro hmem
          rcases List.mem_cons.mp hmem with h | h
          · exact hc h.symm
          · exact ihm l1 (List.mem_cons_self _ _) h
        · exact ihm l (List.mem_cons_of_mem _ h)

/-- For a non-empty input not ending in a newline, the line list ends in a
non-empty final line. -/
theorem rustLines_decomp : ∀ (s : List Char), s ≠ [] → s.getLast? ≠ some '\n' →
    ∃ init lst, rustLines s = init ++ [lst] ∧ lst ≠ []
  | [], hs, _ => absurd rfl hs
  | [c], _, hnl => by
    have hc : ¬ c = '\n' := fun h => hnl (by simp [h])
    exact ⟨[], [c], by simp [rustLines, hc], by simp⟩
  | c :: c2 :: rest, _, hnl => by
    rw [List.getLast?_cons_cons] at hnl
    by_cases hc : c = '\n'
    · obtain ⟨init, lst, hdec, hlst⟩ := rustLines_decomp (c2 :: rest) (by simp) hnl
      refine ⟨[] :: init, lst, ?_, hlst⟩
      unfold rustLines
      rw [if_pos hc, hdec]
      rfl
    · by_cases hc2 : c = '\r' ∧ c2 = '\n'
      · have hrest : rest ≠ [] := by
          intro h
          subst h
          rw [hc2.2] at hnl
          simp at hnl
        have hnl2 : rest.getLast? ≠ some '\n' := by
          obtain ⟨r, rest2, hr⟩ : ∃ r rest2, rest = r :: rest2 := by
            cases rest with
            | nil => exact absurd rfl hrest
            | cons r rest2 => exact ⟨r, rest2, rfl⟩
          rw [hr] at hnl ⊢
          rwa [List.getLast?_cons_cons] at hnl
        obtain ⟨init, lst, hdec, hlst⟩ := rustLines_decomp rest hrest hnl2
        refine ⟨[] :: init, lst, ?_, hlst⟩
        unfold rustLines
        rw [if_neg hc, if_pos hc2, hdec]
        rfl
      · obtain ⟨init, lst, hdec, hlst⟩ := rustLines_decomp (c2 :: rest) (by simp) hnl
        obtain ⟨l1, ls, hM⟩ := rustLines_exists_cons (c2 :: rest) (by simp)
        have hrl : rustLines (c :: c2 :: rest) = (c :: l1) :: ls := by
          unfold rustLines
          rw [if_neg hc, if_neg hc2, hM]
        rw [hM] at hdec
        cases init with
        | nil =>
          have h1 : l1 = lst := by simpa using congrArg (fun x => x.headI) hdec
          have h2 : ls = [] := by
            have := congrArg List.length hdec
            simpa using this
          exact ⟨[], c :: l1, by rw [hrl, h2]; rfl, by simp⟩
        | cons i init2 =>
          have h1 : l1 = i := by simpa using congrArg (fun x => x.headI) hdec
          have h2 : ls = init2 ++ [lst] := by
            have := congrArg List.tail hdec
            simpa using this
          exact ⟨(c :: l1) :: init2, lst, by rw [hrl, h2]; rfl, hlst⟩

/-- Appending a final newline to a carriage-return-free text that does not
already end in one leaves its line list unchanged. -/
theorem rustLines_append_newline : ∀ (t : List Char), '\r' ∉ t → t ≠ [] →
    t.getLast? ≠ some '\n' → rustLines (t ++ ['\n']) = rustLines t
  | [], _, ht, _ => absurd rfl ht
  | [c], hr, _, hnl => by
    have hc : ¬ c = '\n' := fun h => hnl (by simp [h])
    have hcr : ¬ (c = '\r' ∧ '\n' = '\n') := by
      intro h
      exact hr (by simp [h.1])
    show rustLines [c, '\n'] = rustLines [c]
    unfold rustLines
    rw [if_neg hc, if_neg hcr, if_neg hc]
    rfl
  | c :: c2 :: rest, hr, _, hnl => by
    rw [List.getLast?_cons_cons] at hnl
    have hr2 : '\r' ∉ c2 :: rest := fun h => hr (List.mem_cons_of_mem _ h)
    have hcr : c ≠ '\r' := fun h => hr (by rw [h]; exact List.mem_cons_self _ _)
    have ih := rustLines_append_newline (c2 :: rest) hr2 (by simp) hnl
    have happ : (c :: c2 :: rest) ++ ['\n'] = c :: c2 :: (rest ++ ['\n']) := by simp
    by_cases hc : c = '\n'
    · rw [happ]
      conv_lhs => rw [rustLines]
      rw [if_pos hc]
      conv_rhs => rw [rustLines]
      rw [if_pos hc]
      rw [show c2 :: (rest ++ ['\n']) = (c2 :: rest) ++ ['\n'] by simp, ih]
    · have hc2 : ¬ (c = '\r' ∧ c2 = '\n') := fun h => hcr h.1
      obtain ⟨l1, ls, hM⟩ := rustLines_exists_cons (c2 :: rest) (by simp)
      rw [happ]
      conv_lhs => rw [rustLines]
      rw [if_neg hc, if_neg hc2]
      rw [show c2 :: (rest ++ ['\n']) = (c2 :: rest) ++ ['\n'] by simp, ih, hM]
      conv_rhs => rw [rustLines]
      rw [if_neg hc, if_neg hc2, hM]

/-- When the input ended in a newline, the iterator marks every raw line
"not last" and appends an empty "last" pair. -/
theorem flagLines_true : ∀ L : List (List Char),
    flagLines true L = L.map (fun l => (l, false)) ++ [(([] : List Char), true)]
  | [] => rfl
  | [l] => rfl
  | l :: l2 :: ls => by
    have ih := flagLines_true (l2 :: ls)
    simp only [flagLines, ih, List.map_cons, List.cons_append]

/-- When the input did not end in a newline, only the final raw line is
marked "last". -/
theorem flagLines_false_concat : ∀ (init : List (List Char)) (lst : List Char),
    flagLines false (init ++ [lst]) = init.map (fun l => (l, false)) ++ [(lst, true)]
  | [], lst => rfl
  | [i], lst => rfl
  | i :: i2 :: init2, lst => by
    have ih := flagLines_false_concat (i2 :: init2) lst
    simp only [List.cons_append] at ih ⊢
    simp only [flagLines, ih, List.map_cons, List.cons_append]

/-- The output of the writer loop on lines ending in a non-empty "last" line
ends exactly where that line ends. -/
theorem writeLines_out_getLast (etw : Bool) :
    ∀ (fs : List (List Char)) (l : List Char) (st : List ItemState), l ≠ [] →
      ((writeLines etw (fs.map (fun f => (f, false)) ++ [(l, true)]) st).2).getLast?
        = l.getLast?
  | [], l, st, hl => by
    have hle : l.isEmpty = false := by simpa [List.isEmpty_iff] using hl
    simp only [List.map_nil, List.nil_append]
    unfold writeLines
    rw [hle]
    simp only [Bool.and_false, Bool.false_eq_true, if_false, if_true]
    unfold writeLines
    rw [List.append_nil]
    exact glast_append _ _ hl
  | f :: fs, l, st, hl => by
    have ih := writeLines_out_getLast etw fs l
      (((write_prefix_and_padding etw st f.isEmpty).1).map ItemState.reset_line_state) hl
    have hne : (writeLines etw (fs.map (fun f => (f, false)) ++ [(l, true)])
        (((write_prefix_and_padding etw st f.isEmpty).1).map ItemState.reset_line_state)).2
        ≠ [] := by
      intro h
      rw [h] at ih
      have : l = [] := List.getLast?_eq_none_iff.mp ih.symm
      exact hl this
    simp only [List.map_cons, List.cons_append]
    unfold writeLines
    simp only [Bool.false_and, Bool.false_eq_true, if_false]
    rw [glast_append _ _ (by simp : ('\n' :: (writeLines etw
      (fs.map (fun f => (f, false)) ++ [(l, true)])
      (((write_prefix_and_padding etw st f.isEmpty).1).map ItemState.reset_line_state)).2) ≠ [])]
    exact (glast_append ['\n'] _ hne).trans ih

/-- One unfolding of the writer loop on a non-last line. -/
theorem writeLines_cons_false (etw : Bool) (line : List Char)
    (rest : List (List Char × Bool)) (states : List ItemState) :
    writeLines etw ((line, false) :: rest) states =
      ((writeLines etw rest
        (((write_prefix_and_padding etw states line.isEmpty).1).map
          ItemState.reset_line_state)).1,
       (write_prefix_and_padding etw states line.isEmpty).2 ++ line ++ '\n' ::
        (writeLines etw rest
          (((write_prefix_and_padding etw states line.isEmpty).1).map
            ItemState.reset_line_state)).2) := rfl

/-- The early exit: a slice that is both last and empty is never processed —
no prefix is drawn and nothing is appended. -/
theorem writeLines_last_empty (etw : Bool) (rest : List (List Char × Bool))
    (states : List ItemState) :
    writeLines etw ((([] : List Char), true) :: rest) states = (states, []) := rfl

/-- The output of the writer loop for a trailing-newline input ends in
exactly one newline, preceded by the end of the final non-empty line. -/
theorem writeLines_out_endsNl (etw : Bool) :
    ∀ (fs : List (List Char)) (l : List Char) (st : List ItemState), l ≠ [] →
      ((writeLines etw ((fs ++ [l]).map (fun f => (f, false))
          ++ [(([] : List Char), true)]) st).2).getLast? = some '\n'
      ∧ (((writeLines etw ((fs ++ [l]).map (fun f => (f, false))
          ++ [(([] : List Char), true)]) st).2).dropLast).getLast? = l.getLast?
  | [], l, st, hl => by
    simp only [List.nil_append, List.map_cons, List.map_nil, List.cons_append,
      List.nil_append]
    rw [writeLines_cons_false, writeLines_last_empty]
    constructor
    · rw [show (write_prefix_and_padding etw st l.isEmpty).2 ++ l ++ '\n' :: ([] : List Char)
          = ((write_prefix_and_padding etw st l.isEmpty).2 ++ l) ++ ['\n'] by simp]
      exact List.getLast?_concat _
    · rw [show (write_prefix_and_padding etw st l.isEmpty).2 ++ l ++ '\n' :: ([] : List Char)
          = ((write_prefix_and_padding etw st l.isEmpty).2 ++ l) ++ ['\n'] by simp]
      rw [List.dropLast_concat]
      exact glast_append _ _ hl
  | f :: fs, l, st, hl => by
    have ih := writeLines_out_endsNl etw fs l
      (((write_prefix_and_padding etw st f.isEmpty).1).map ItemState.reset_line_state) hl
    simp only [List.cons_append, List.map_cons]
    rw [writeLines_cons_false]
    obtain ⟨ih1, ih2⟩ := ih
    have hrne : (writeLines etw ((fs ++ [l]).map (fun f => (f, false))
        ++ [(([] : List Char), true)])
        (((write_prefix_and_padding etw st f.isEmpty).1).map
          ItemState.reset_line_state)).2 ≠ [] := by
      intro h
      rw [h] at ih1
      simp at ih1
    set r := (writeLines etw ((fs ++ [l]).map (fun f => (f, false))
      ++ [(([] : List Char), true)])
      (((write_prefix_and_padding etw st f.isEmpty).1).map
        ItemState.reset_line_state)).2 with hrdef
    have hdne : r.dropLast ≠ [] := by
      intro h
      rw [h] at ih2
      exact hl (List.getLast?_eq_none_iff.mp ih2.symm)
    constructor
    · show ((write_prefix_and_padding etw st f.isEmpty).2 ++ f
        ++ '\n' :: r).getLast? = some '\n'
      rw [glast_append _ _ (show '\n' :: r ≠ [] by simp)]
      exact (glast_append ['\n'] r hrne).trans ih1
    · show (((write_prefix_and_padding etw st f.isEmpty).2 ++ f
        ++ '\n' :: r).dropLast).getLast? = l.getLast?
      rw [List.dropLast_append_cons, List.dropLast_cons_of_ne_nil hrne]
      rw [glast_append _ _ (show '\n' :: r.dropLast ≠ [] by simp)]
      exact (glast_append ['\n'] r.dropLast hdne).trans ih2

/-- A non-empty line produced by the splitter does not end in a newline. -/
theorem lines_getLast_ne_nl (s : List Char) (lst : List Char)
    (hmem : lst ∈ rustLines s) (hlst : lst ≠ []) : lst.getLast? ≠ some '\n' := by
  intro hsome
  have hg := List.getLast?_eq_getLast lst hlst
  rw [hg] at hsome
  have heq : lst.getLast hlst = '\n' := Option.some.inj hsome
  exact rustLines_no_newline s lst hmem (heq ▸ List.getLast_mem hlst)

/-- Claim C3 (amended): for a single node written through the item writer,
text not ending in "\n" renders to a block with no trailing newline; text
containing no carriage return and ending in exactly one "\n" renders to a
block ending in exactly one newline; and a final slice that is both last and
empty is never processed, so no prefix is drawn and no empty trailing line is
appended for it. -/
theorem claim_c3_amended (etw is_last : Bool) (edge : EdgeConfig) (s : List Char) :
    (s.getLast? ≠ some '\n' →
      ((ItemWriter.write_str etw [ItemState.new is_last edge] s).2).getLast?
        ≠ some '\n')
    ∧ ('\r' ∉ s → s.getLast? = some '\n' → s.dropLast.getLast? ≠ some '\n' →
      ((ItemWriter.write_str etw [ItemState.new is_last edge] s).2).getLast?
        = some '\n'
      ∧ (((ItemWriter.write_str etw [ItemState.new is_last edge] s).2).dropLast).getLast?
        ≠ some '\n')
    ∧ (∀ states : List ItemState,
        writeLines etw [(([] : List Char), true)] states = (states, [])) := by
  refine ⟨?_, ?_, fun states => rfl⟩
  · intro hnl
    by_cases hs : s = []
    · subst hs
      simp [ItemWriter.write_str, lines_with_last_line_flag, rustLines, flagLines,
        writeLines]
    · obtain ⟨init, lst, hdec, hlst⟩ := rustLines_decomp s hs hnl
      have hextra : (s.getLast? == some '\n') = false := by simp [hnl]
      unfold ItemWriter.write_str lines_with_last_line_flag
      rw [hextra, hdec, flagLines_false_concat]
      rw [writeLines_out_getLast etw init lst _ hlst]
      exact lines_getLast_ne_nl s lst (by rw [hdec]; simp) hlst
  · intro hr hnl hone
    by_cases hsn : s = ['\n']
    · subst hsn
      cases etw <;> cases is_last <;> cases edge <;> exact ⟨by decide, by decide⟩
    · have hs : s ≠ [] := by intro h; rw [h] at hnl; simp at hnl
      have hgl : s.getLast hs = '\n' := by
        have hg := List.getLast?_eq_getLast s hs
        exact Option.some.inj (hg.symm.trans hnl)
      have hst : s.dropLast ++ ['\n'] = s := by
        have hd := List.dropLast_concat_getLast hs
        rwa [hgl] at hd
      have htne : s.dropLast ≠ [] := by
        intro h
        apply hsn
        rw [← hst, h]
        rfl
      have hrt : '\r' ∉ s.dropLast := by
        intro h
        apply hr
        rw [← hst]
        exact List.mem_append_left _ h
      have hLL : rustLines s = rustLines s.dropLast := by
        conv_lhs => rw [← hst]
        exact rustLines_append_newline s.dropLast hrt htne hone
      obtain ⟨init, lst, hdec, hlst⟩ := rustLines_decomp s.dropLast htne hone
      have hextra : (s.getLast? == some '\n') = true := by simp [hnl]
      unfold ItemWriter.write_str lines_with_last_line_flag
      rw [hextra, hLL, hdec, flagLines_true]
      have hends := writeLines_out_endsNl etw init lst
        [ItemState.new is_last edge] hlst
      refine ⟨hends.1, ?_⟩
      rw [hends.2]
      exact lines_getLast_ne_nl s.dropLast lst (by rw [hdec]; simp) hlst

/-- Claim C3 counterexample: the text "a\n\r\n" ends in exactly one "\n"
(the character before the final newline is a carriage return), yet the
rendered block ends in two newlines: Rust `str::lines` swallows the "\r\n"
pair, leaving an empty non-last line that renders as a blank line. -/
theorem claim_c3_counterexample :
    (chars "a\n\r\n").getLast? = some '\n'
    ∧ (chars "a\n\r\n").dropLast.getLast? ≠ some '\n'
    ∧ (((ItemWriter.write_str false [ItemState.new true EdgeConfig.Ascii]
        (chars "a\n\r\n")).2).dropLast).getLast? = some '\n' := by
  exact ⟨by decide, by decide, by decide⟩

/-- Claim C3 witness: the amended theorem evaluated on "foo" (no trailing
newline in, none out) and "foo\n" (exactly one trailing newline in and
out). -/
theorem claim_c3_witness :
    ((ItemWriter.write_str false [ItemState.new true EdgeConfig.Ascii]
        (chars "foo")).2).getLast? ≠ some '\n'
    ∧ ((ItemWriter.write_str false [ItemState.new true EdgeConfig.Ascii]
        (chars "foo\n")).2).getLast? = some '\n'
    ∧ (((ItemWriter.write_str false [ItemState.new true EdgeConfig.Ascii]
        (chars "foo\n")).2).dropLast).getLast? ≠ some '\n' :=
  ⟨(claim_c3_amended false true EdgeConfig.Ascii (chars "foo")).1 (by decide),
   ((claim_c3_amended false true EdgeConfig.Ascii (chars "foo\n")).2.1
     (by decide) (by decide) (by decide)).1,
   ((claim_c3_amended false true EdgeConfig.Ascii (chars "foo\n")).2.1
     (by decide) (by decide) (by decide)).2⟩

/-- The last element of a cons with a non-empty tail. -/
theorem glast_cons {α : Type} (x : α) (l : List α) (h : l ≠ []) :
    (x :: l).getLast? = l.getLast? := glast_append [x] l h

/-- The per-line emission walk preserves the number of depths. -/
theorem processStates_length (etw eLP : Bool) (k : Nat) :
    ∀ (i : Nat) (states : List ItemState),
      ((processStates etw eLP k i states).1).length = states.length
  | _, [] => rfl
  | i, st :: rest => by
    have ih := processStates_length etw eLP k (i + 1) rest
    unfold processStates
    split
    · simp [ih]
    · split <;> simp

/-- The per-line emission walk keeps a non-empty stack non-empty. -/
theorem processStates_ne_nil (etw eLP : Bool) (k i : Nat) (states : List ItemState)
    (h : states ≠ []) : (processStates etw eLP k i states).1 ≠ [] := by
  intro hnil
  have := processStates_length etw eLP k i states
  rw [hnil] at this
  exact h (List.eq_nil_of_length_eq_zero this.symm)

/-- When the walk's target index is the deepest depth, the deepest state ends
in `PaddingEmitted` exactly when `emit_trailing_whitespace` or
`emit_last_padding` holds (otherwise only its prefix is emitted). -/
theorem processStates_getLast_eq_k (etw eLP : Bool) :
    ∀ (k i : Nat) (states : List ItemState), i ≤ k → i + states.length = k + 1 →
      (∀ st ∈ states, st.edge_status = LineEdgeStatus.LineStart) →
      (((processStates etw eLP k i states).1).getLast?).map ItemState.edge_status
        = some (if etw || eLP then LineEdgeStatus.PaddingEmitted
            else LineEdgeStatus.PrefixEmitted)
  | k, i, [], hik, hlen, _ => by simp at hlen; omega
  | k, i, [st], hik, hlen, hLS => by
    have hik2 : ¬ i < k := by simp at hlen; omega
    have hik3 : i = k := by simp at hlen; omega
    have hstLS := hLS st (List.mem_cons_self _ _)
    unfold processStates
    rw [if_neg hik2, if_pos hik3]
    cases etw <;> cases eLP <;>
      simp [hstLS, ItemState.write_prefix, ItemState.write_padding]
  | k, i, st :: st2 :: rest, hik, hlen, hLS => by
    have h1 : i < k := by simp at hlen; omega
    have ih := processStates_getLast_eq_k etw eLP k (i + 1) (st2 :: rest)
      (by omega) (by simp at hlen ⊢; omega)
      (fun s hs => hLS s (List.mem_cons_of_mem _ hs))
    unfold processStates
    rw [if_pos h1]
    have hprne := processStates_ne_nil etw eLP k (i + 1) (st2 :: rest) (by simp)
    show (((_ :: (processStates etw eLP k (i + 1) (st2 :: rest)).1).getLast?).map
      ItemState.edge_status) = _
    rw [glast_cons _ _ hprne]
    exact ih

/-- When the walk's target index lies strictly before the deepest depth, the
deepest state is left untouched. -/
theorem processStates_getLast_lt (etw eLP : Bool) :
    ∀ (k i : Nat) (states : List ItemState), k + 1 < i + states.length →
      ((processStates etw eLP k i states).1).getLast? = states.getLast?
  | _, _, [], _ => rfl
  | k, i, st :: rest, hlt => by
    unfold processStates
    by_cases h1 : i < k
    · rw [if_pos h1]
      have hrne : rest ≠ [] := by
        intro h
        rw [h] at hlt
        simp at hlt
        omega
      have ih := processStates_getLast_lt etw eLP k (i + 1) rest
        (by simp at hlt ⊢; omega)
      have hprne := processStates_ne_nil etw eLP k (i + 1) rest hrne
      show ((_ :: (processStates etw eLP k (i + 1) rest).1).getLast?) = _
      rw [glast_cons _ _ hprne, ih, glast_cons _ _ hrne]
    · rw [if_neg h1]
      by_cases h2 : i = k
      · rw [if_pos h2]
        have hrne : rest ≠ [] := by
          intro h
          rw [h, h2] at hlt
          simp at hlt
        show ((_ :: rest).getLast?) = _
        rw [glast_cons _ _ hrne, glast_cons _ _ hrne]
      · rw [if_neg h2]

/-- An index returned by `rposition` is in bounds. -/
theorem rposition_lt {α : Type} (p : α → Bool) :
    ∀ (l : List α) (k : Nat), rposition p l = some k → k < l.length
  | [], k, h => by simp [rposition] at h
  | x :: xs, k, h => by
    unfold rposition at h
    cases hx : rposition p xs with
    | some i =>
      rw [hx] at h
      have hk : i + 1 = k := Option.some.inj h
      have := rposition_lt p xs i hx
      simp
      omega
    | none =>
      rw [hx] at h
      by_cases hpx : p x = true
      · rw [if_pos hpx] at h
        have : (0 : Nat) = k := Option.some.inj h
        simp
        omega
      · rw [if_neg hpx] at h
        exact absurd h (by simp)

/-- The element at an index returned by `rposition` satisfies the predicate. -/
theorem rposition_get {α : Type} (p : α → Bool) :
    ∀ (l : List α) (k : Nat), rposition p l = some k →
      ∃ x, l[k]? = some x ∧ p x = true
  | [], k, h => by simp [rposition] at h
  | x :: xs, k, h => by
    unfold rposition at h
    cases hx : rposition p xs with
    | some i =>
      rw [hx] at h
      have hk : i + 1 = k := Option.some.inj h
      obtain ⟨y, hy, hpy⟩ := rposition_get p xs i hx
      refine ⟨y, ?_, hpy⟩
      rw [← hk]
      simpa using hy
    | none =>
      rw [hx] at h
      by_cases hpx : p x = true
      · rw [if_pos hpx] at h
        have : (0 : Nat) = k := Option.some.inj h
        rw [← this]
        exact ⟨x, by simp, hpx⟩
      · rw [if_neg hpx] at h
        exact absurd h (by simp)

/-- `rposition` finds nothing when no element satisfies the predicate. -/
theorem rposition_none {α : Type} (p : α → Bool) :
    ∀ (l : List α), (∀ x ∈ l, p x = false) → rposition p l = none
  | [], _ => rfl
  | x :: xs, h => by
    unfold rposition
    rw [rposition_none p xs (fun y hy => h y (List.mem_cons_of_mem _ hy))]
    simp [h x (List.mem_cons_self _ _)]

/-- At a position whose prefix+padding is not pure whitespace, the prefix is
non-empty and does not end in a space. -/
theorem edge_pfx_not_ws (e : EdgeConfig) (lc fl : Bool)
    (h : e.is_prefix_whitespace lc fl = false) :
    e.write_edge lc fl PrefixPart.Prefix ≠ []
    ∧ (e.write_edge lc fl PrefixPart.Prefix).getLast? ≠ some ' ' := by
  cases e <;> cases lc <;> cases fl <;> (revert h; decide)

/-- With the trailing-whitespace flag unset and no last padding, the emitted
characters end with the prefix of the state at the target index. -/
theorem processStates_out :
    ∀ (k i : Nat) (states : List ItemState) (stk : ItemState), i ≤ k →
      states[k - i]? = some stk → stk.edge_status = LineEdgeStatus.LineStart →
      ∃ pre, (processStates false false k i states).2
        = pre ++ stk.edge.write_edge stk.is_last_child stk.at_first_line
            PrefixPart.Prefix
  | k, i, [], stk, _, hget, _ => by simp at hget
  | k, i, st :: rest, stk, hik, hget, hLSk => by
    by_cases h1 : i < k
    · have hki : k - i = (k - (i + 1)) + 1 := by omega
      rw [hki, List.getElem?_cons_succ] at hget
      obtain ⟨pre, hpre⟩ := processStates_out k (i + 1) rest stk (by omega) hget hLSk
      unfold processStates
      rw [if_pos h1]
      show ∃ pre2, _ ++ _ ++ (processStates false false k (i + 1) rest).2 = _
      rw [hpre]
      exact ⟨_, (List.append_assoc _ pre _).symm⟩
    · have h2 : i = k := by omega
      subst h2
      rw [Nat.sub_self] at hget
      have hst : st = stk := by simpa using hget
      subst hst
      unfold processStates
      rw [if_neg (lt_irrefl i), if_pos rfl]
      refine ⟨[], ?_⟩
      simp [hLSk, ItemState.write_prefix, ItemState.write_padding]

/-- Claim C4: with all depths at a line start, the deepest depth ends up
padded exactly when `emit_trailing_whitespace || !line_is_empty`; with the
flag unset, an empty line's emission either is empty or ends in a visible
(non-space) connector character; if every depth's prefix+padding is pure
whitespace nothing is emitted at all; and with the flag set a blank line
receives the full ancestor padding (test values from the repository). -/
theorem claim_c4 :
    (∀ (etw line_is_empty : Bool) (states : List ItemState), states ≠ [] →
      (∀ st ∈ states, st.edge_status = LineEdgeStatus.LineStart) →
      ((((write_prefix_and_padding etw states line_is_empty).1).getLast?).map
          ItemState.edge_status = some LineEdgeStatus.PaddingEmitted
        ↔ (etw || !line_is_empty) = true))
    ∧ (∀ states : List ItemState, states ≠ [] →
      (∀ st ∈ states, st.edge_status = LineEdgeStatus.LineStart) →
      (write_prefix_and_padding false states true).2 = []
      ∨ ∃ c, ((write_prefix_and_padding false states true).2).getLast? = some c
          ∧ c ≠ ' ')
    ∧ (∀ states : List ItemState,
      (∀ st ∈ states,
        st.edge.is_prefix_whitespace st.is_last_child st.at_first_line = true) →
      write_prefix_and_padding false states true = (states, []))
    ∧ (ItemWriter.write_str true [ItemState.new false EdgeConfig.Ascii]
        (chars "foo\n\nbar")).2 = chars "|-- foo\n|   \n|   bar"
    ∧ (ItemWriter.write_str false [ItemState.new false EdgeConfig.Ascii]
        (chars "foo\n\nbar")).2 = chars "|-- foo\n|\n|   bar" := by
  refine ⟨?_, ?_, ?_, by decide, by decide⟩
  · intro etw le states hne hLS
    have hie : states.isEmpty = false := by simpa [List.isEmpty_iff] using hne
    simp only [write_prefix_and_padding, hie, Bool.false_eq_true, if_false]
    by_cases heLP : (etw || !le) = true
    · rw [if_pos heLP]
      show (((processStates etw (etw || !le) (states.length - 1) 0 states).1.getLast?).map
        ItemState.edge_status = some LineEdgeStatus.PaddingEmitted) ↔ (etw || !le) = true
      rw [processStates_getLast_eq_k etw (etw || !le) (states.length - 1) 0 states
        (Nat.zero_le _) (by have := List.length_pos.mpr hne; omega) hLS]
      simp [heLP]
    · rw [if_neg heLP]
      have heLP2 : (etw || !le) = false := by simpa using heLP
      have hetw : etw = false := by
        cases etw
        · rfl
        · simp at heLP2
      cases hk : rposition (fun st =>
          ! st.edge.is_prefix_whitespace st.is_last_child st.at_first_line) states with
      | none =>
        show ((states.getLast?).map ItemState.edge_status
          = some LineEdgeStatus.PaddingEmitted) ↔ (etw || !le) = true
        rw [List.getLast?_eq_getLast states hne]
        simp [hLS _ (List.getLast_mem hne), heLP2]
      | some k =>
        have hklt := rposition_lt _ states k hk
        show (((processStates etw (etw || !le) k 0 states).1.getLast?).map
          ItemState.edge_status = some LineEdgeStatus.PaddingEmitted) ↔ (etw || !le) = true
        by_cases hkl : 0 + states.length = k + 1
        · rw [processStates_getLast_eq_k etw (etw || !le) k 0 states
            (Nat.zero_le _) hkl hLS]
          simp [hetw, heLP2]
        · rw [processStates_getLast_lt etw (etw || !le) k 0 states (by omega)]
          rw [List.getLast?_eq_getLast states hne]
          simp [hLS _ (List.getLast_mem hne), heLP2]
  · intro states hne hLS
    have hie : states.isEmpty = false := by simpa [List.isEmpty_iff] using hne
    simp only [write_prefix_and_padding, hie, Bool.false_eq_true, if_false,
      Bool.not_true, Bool.or_false]
    cases hk : rposition (fun st =>
        ! st.edge.is_prefix_whitespace st.is_last_child st.at_first_line) states with
    | none => exact Or.inl rfl
    | some k =>
      right
      obtain ⟨stk, hget, hpk⟩ := rposition_get _ states k hk
      have hkLS := hLS stk (List.getElem?_mem hget)
      obtain ⟨pre, hpre⟩ := processStates_out k 0 states stk (Nat.zero_le _)
        (by simpa using hget) hkLS
      have hwsf : stk.edge.is_prefix_whitespace stk.is_last_child stk.at_first_line
          = false := by simpa using hpk
      obtain ⟨hpne, hplast⟩ := edge_pfx_not_ws _ _ _ hwsf
      show ∃ c, ((processStates false false k 0 states).2).getLast? = some c ∧ c ≠ ' '
      rw [hpre, glast_append _ _ hpne]
      cases hgl : (stk.edge.write_edge stk.is_last_child stk.at_first_line
          PrefixPart.Prefix).getLast? with
      | none => exact absurd (List.getLast?_eq_none_iff.mp hgl) hpne
      | some c => exact ⟨c, rfl, fun hc => hplast (by rw [hgl, hc])⟩
  · intro states hall
    by_cases hie : states.isEmpty
    · have h0 : states = [] := List.isEmpty_iff.mp hie
      subst h0
      rfl
    · have hie2 : states.isEmpty = false := by simpa using hie
      simp only [write_prefix_and_padding, hie2, Bool.false_eq_true, if_false,
        Bool.not_true, Bool.or_false]
      rw [rposition_none _ states (fun st hst => by simp [hall st hst])]

/-- The immutable part of a per-depth state: which node it decorates. -/
def coreOf (st : ItemState) : Bool × EdgeConfig := (st.is_last_child, st.edge)

/-- The prefix step does not change which node a state decorates. -/
theorem coreOf_step1 (st : ItemState) (etw : Bool) :
    coreOf ((if st.edge_status = LineEdgeStatus.LineStart
      then ItemState.write_prefix st etw else (st, [])).1) = coreOf st := by
  split
  · cases etw <;> rfl
  · rfl

/-- The padding step does not change which node a state decorates. -/
theorem coreOf_pad_if (x : ItemState) (c : Prop) [Decidable c] :
    coreOf ((if c then ItemState.write_padding x else (x, [])).1) = coreOf x := by
  split <;> rfl

/-- Resetting the line state does not change which node a state decorates. -/
theorem coreOf_reset (st : ItemState) :
    coreOf st.reset_line_state = coreOf st := rfl

/-- The emission walk only mutates line-tracking fields of the stack. -/
theorem processStates_core (etw eLP : Bool) (k : Nat) :
    ∀ (i : Nat) (states : List ItemState),
      ((processStates etw eLP k i states).1).map coreOf = states.map coreOf
  | _, [] => rfl
  | i, st :: rest => by
    have ih := processStates_core etw eLP k (i + 1) rest
    unfold processStates
    split
    · simp only [List.map_cons, ih]
      rw [coreOf_pad_if, coreOf_step1]
    · split
      · simp only [List.map_cons]
        rw [coreOf_pad_if, coreOf_step1]
      · rfl

/-- `write_prefix_and_padding` only mutates line-tracking fields. -/
theorem wppp_core (etw : Bool) (states : List ItemState) (le : Bool) :
    ((write_prefix_and_padding etw states le).1).map coreOf = states.map coreOf := by
  simp only [write_prefix_and_padding]
  split
  · rfl
  · split
    · rfl
    · exact processStates_core _ _ _ _ _

/-- Stacks decorating the same nodes have the same depth. -/
theorem map_core_length {l m : List ItemState}
    (h : l.map coreOf = m.map coreOf) : l.length = m.length := by
  have := congrArg List.length h
  simpa using this

/-- The writer loop only mutates line-tracking fields of the stack. -/
theorem writeLines_core (etw : Bool) :
    ∀ (items : List (List Char × Bool)) (states : List ItemState),
      ((writeLines etw items states).1).map coreOf = states.map coreOf
  | [], _ => rfl
  | (line, al) :: rest, states => by
    have ih1 := writeLines_core etw rest
      ((write_prefix_and_padding etw states line.isEmpty).1)
    have ih2 := writeLines_core etw rest
      (((write_prefix_and_padding etw states line.isEmpty).1).map
        ItemState.reset_line_state)
    unfold writeLines
    split
    · rfl
    · split
      · rw [ih1, wppp_core]
      · rw [ih2, List.map_map]
        have hc : coreOf ∘ ItemState.reset_line_state = coreOf :=
          funext (fun st => coreOf_reset st)
        rw [hc, wppp_core]

/-- `go_to_next_line` only mutates line-tracking fields of the stack. -/
theorem gtnl_core (etw : Bool) (states : List ItemState) :
    ((go_to_next_line etw states).1).map coreOf = states.map coreOf := by
  unfold go_to_next_line
  split
  · rfl
  · split
    · rfl
    · exact writeLines_core _ _ _

/-- `close_node` on a non-empty stack succeeds and pops exactly the most
recently opened node, leaving the remaining nodes in order. -/
theorem close_node_ok (p : TreePrinter) (hne : p.states ≠ []) :
    ∃ p2, p.close_node = Except.ok p2
      ∧ p2.states.map coreOf = (p.states.map coreOf).dropLast
      ∧ p2.states.length = p.states.length - 1 := by
  have hie : p.states.isEmpty = false := by simpa [List.isEmpty_iff] using hne
  unfold TreePrinter.close_node
  simp only [hie, Bool.false_eq_true, if_false]
  have hg : ((if p.opts.emit_trailing_newline
      then go_to_next_line p.opts.emit_trailing_whitespace p.states
      else (p.states, [])).1).map coreOf = p.states.map coreOf := by
    split
    · exact gtnl_core _ _
    · rfl
  refine ⟨_, rfl, ?_, ?_⟩
  · show ((if p.opts.emit_trailing_newline
        then go_to_next_line p.opts.emit_trailing_whitespace p.states
        else (p.states, ([] : List Char))).1.dropLast).map coreOf
      = (p.states.map coreOf).dropLast
    rw [List.map_dropLast, hg]
  · show ((if p.opts.emit_trailing_newline
        then go_to_next_line p.opts.emit_trailing_whitespace p.states
        else (p.states, ([] : List Char))).1.dropLast).length
      = p.states.length - 1
    rw [List.length_dropLast, map_core_length hg]

/-- `open_node` always succeeds and pushes exactly one state. -/
theorem open_node_ok (p : TreePrinter) (style : ItemStyle) (content : List Char) :
    ∃ p2, p.open_node style content = Except.ok p2
      ∧ p2.states.length = p.states.length + 1 := by
  unfold TreePrinter.open_node
  refine ⟨_, rfl, ?_⟩
  have hg : ((if p.states.isEmpty then (p.states, ([] : List Char))
      else go_to_next_line p.opts.emit_trailing_whitespace p.states).1).map coreOf
      = p.states.map coreOf := by
    split
    · rfl
    · exact gtnl_core _ _
  have hw := writeLines_core p.opts.emit_trailing_whitespace
    (lines_with_last_line_flag content)
    (((if p.states.isEmpty then (p.states, ([] : List Char))
      else go_to_next_line p.opts.emit_trailing_whitespace p.states).1)
      ++ [style.into])
  unfold ItemWriter.write_str
  have := map_core_length hw
  simp only [List.length_append, List.length_cons, List.length_nil] at this
  rw [this]
  have := map_core_length hg
  omega

/-- A balanced call sequence never fails. -/
theorem runOps_ok : ∀ (ops : List Op) (p : TreePrinter),
    depthOk p.states.length ops = true →
    ∃ p2, runOps ops p = Except.ok p2
  | [], p, _ => ⟨p, rfl⟩
  | Op.openNode style content :: rest, p, hd => by
    obtain ⟨p2, hp2, hlen⟩ := open_node_ok p style content
    unfold runOps
    rw [hp2]
    refine runOps_ok rest p2 ?_
    rw [hlen]
    simpa [depthOk] using hd
  | Op.closeNode :: rest, p, hd => by
    cases hd2 : p.states.length with
    | zero =>
      rw [hd2] at hd
      simp [depthOk] at hd
    | succ e =>
      have hne : p.states ≠ [] := by intro h; rw [h] at hd2; simp at hd2
      obtain ⟨p2, hp2, _, hlen⟩ := close_node_ok p hne
      unfold runOps
      rw [hp2]
      refine runOps_ok rest p2 ?_
      rw [hlen, hd2]
      rw [hd2] at hd
      simpa [depthOk] using hd

/-- Closing as many nodes as are open always succeeds and empties the
stack. -/
theorem closeAll_ok : ∀ (n : Nat) (p : TreePrinter), p.states.length = n →
    ∃ p2, closeAll n p = Except.ok p2 ∧ p2.states = []
  | 0, p, h => ⟨p, rfl, List.eq_nil_of_length_eq_zero h⟩
  | n + 1, p, h => by
    have hne : p.states ≠ [] := by intro hh; rw [hh] at h; simp at h
    obtain ⟨p2, hp2, _, hlen⟩ := close_node_ok p hne
    unfold closeAll
    rw [hp2]
    exact closeAll_ok n p2 (by omega)

/-- Claim C6: for every balanced open/close call sequence (the sink cannot
fail), `finalize` succeeds and leaves the stack empty, returning the sink;
`close_node` on a non-empty stack pops exactly the most recently opened node
(LIFO); and when every node was already closed, `finalize` closes nothing and
writes nothing. -/
theorem claim_c6 :
    (∀ (ops : List Op) (opts : TreeConfig) (w : List Char),
      depthOk 0 ops = true →
      ∃ p, runOps ops (TreePrinter.new w opts) = Except.ok p
        ∧ ∃ p2, closeAll p.states.length p = Except.ok p2 ∧ p2.states = []
          ∧ p.finalize = Except.ok p2.writer)
    ∧ (∀ p : TreePrinter, p.states ≠ [] →
      ∃ p2, p.close_node = Except.ok p2
        ∧ p2.states.map coreOf = (p.states.map coreOf).dropLast
        ∧ p2.states.length = p.states.length - 1)
    ∧ (∀ p : TreePrinter, p.states = [] → p.finalize = Except.ok p.writer) := by
  refine ⟨?_, fun p hne => close_node_ok p hne, ?_⟩
  · intro ops opts w hd
    obtain ⟨p, hp⟩ := runOps_ok ops (TreePrinter.new w opts)
      (by simpa [TreePrinter.new] using hd)
    obtain ⟨p2, hp2, hnil⟩ := closeAll_ok p.states.length p rfl
    refine ⟨p, hp, p2, hp2, hnil, ?_⟩
    unfold TreePrinter.finalize
    rw [hp2]
  · intro p h
    unfold TreePrinter.finalize
    rw [h]
    rfl

/-- Claim C6 witness: the theorem applied to the sequence that opens a
single node. -/
theorem claim_c6_witness :
    ∃ p, runOps [Op.openNode (ItemStyle.last EdgeConfig.Ascii) (chars "foo")]
        (TreePrinter.new [] TreeConfig.new) = Except.ok p
      ∧ ∃ p2, closeAll p.states.length p = Except.ok p2 ∧ p2.states = []
        ∧ p.finalize = Except.ok p2.writer :=
  claim_c6.1 [Op.openNode (ItemStyle.last EdgeConfig.Ascii) (chars "foo")]
    TreeConfig.new [] (by decide)

/-- Claim C4 witness: the padding-decision equivalence evaluated on one
fresh Ascii depth with an empty line and the flag unset. -/
theorem claim_c4_witness :
    ((((write_prefix_and_padding false [ItemState.new false EdgeConfig.Ascii]
        true).1).getLast?).map ItemState.edge_status
      = some LineEdgeStatus.PaddingEmitted) ↔ (false || !true) = true :=
  claim_c4.1 false true [ItemState.new false EdgeConfig.Ascii]
    (by decide) (by decide)
